import Mathlib

/-!
Verification of the `Tempfile` class of `helpful.py` (a temp-file wrapper
with cleanup support) against its specification.

The embedding models the host filesystem as an explicit state (`FS`) and the
standard-library primitives the class calls (`tempfile.mkstemp`,
`tempfile.mkdtemp`, `os.close`, `os.unlink`, `shutil.rmtree`) as functions on
that state.  Exceptions are modelled with `Except` / an `Option Err` field;
an exception carries the state at the moment it is raised, since Python
exceptions do not roll back side effects.  The cleanup loop additionally
records the sequence of system calls it attempts (its `trace`), so that
ordering and fail-fast properties can be stated.
-/

/-- Errors raised by the modelled filesystem primitives. -/
inductive Err where
  | enospc  -- creation failed (disk full / no names or descriptors left)
  | enoent  -- path to delete does not exist
  | ebadf   -- descriptor to close is not open
deriving DecidableEq, Repr

/-- Predicate `isUnder root p` holds when path `p` is `root` itself or lies inside the
directory `root`; `shutil.rmtree root` removes exactly such paths. -/
def isUnder (root p : String) : Bool :=
  p == root || (root ++ "/").isPrefixOf p

/-- The filesystem state.  `files`, `dirs` and `fds` are the existing regular
files, existing directories and open file descriptors.  `nameSupply` and
`fdSupply` model the fresh unique names / descriptors the `tempfile` module
hands out, and `diskFull` models an external condition that makes creation
primitives fail. -/
structure FS where
  files : List String
  dirs : List String
  fds : List Nat
  nameSupply : List String
  fdSupply : List Nat
  diskFull : Bool
deriving DecidableEq, Repr

/-- A path exists if it is a regular file or a directory. -/
def FS.pathExists (fs : FS) (p : String) : Prop :=
  p ∈ fs.files ∨ p ∈ fs.dirs

instance (fs : FS) (p : String) : Decidable (fs.pathExists p) := by
  unfold FS.pathExists; infer_instance

/-- Python `tempfile.mkstemp`: creates a fresh uniquely named regular file, opens a
descriptor on it, and returns the `(descriptor, path)` pair.  Raises (with no
side effect) when the disk is full or the supplies are exhausted. -/
def tempfile_mkstemp (fs : FS) : Except Err ((Nat × String) × FS) :=
  if fs.diskFull then .error .enospc
  else
    match fs.fdSupply, fs.nameSupply with
    | fd :: fdRest, n :: nRest =>
        .ok ((fd, n),
          { fs with files := fs.files ++ [n], fds := fs.fds ++ [fd],
                    fdSupply := fdRest, nameSupply := nRest })
    | _, _ => .error .enospc

/-- Python `tempfile.mkdtemp`: creates a fresh uniquely named directory and returns
its path.  Raises (with no side effect) when the disk is full or the name
supply is exhausted. -/
def tempfile_mkdtemp (fs : FS) : Except Err (String × FS) :=
  if fs.diskFull then .error .enospc
  else
    match fs.nameSupply with
    | n :: nRest => .ok (n, { fs with dirs := fs.dirs ++ [n], nameSupply := nRest })
    | [] => .error .enospc

/-- Python `os.close fd`: closes an open descriptor; raises if it is not open. -/
def os_close (fd : Nat) (fs : FS) : Except Err FS :=
  if fd ∈ fs.fds then .ok { fs with fds := fs.fds.filter (· != fd) }
  else .error .ebadf

/-- Python `os.unlink p`: deletes the regular file `p`; raises if it does not exist. -/
def os_unlink (p : String) (fs : FS) : Except Err FS :=
  if p ∈ fs.files then .ok { fs with files := fs.files.filter (· != p) }
  else .error .enoent

/-- Python `shutil.rmtree p`: recursively deletes the directory tree rooted at `p`
(`p` itself and every file or directory under it); raises if `p` is not an
existing directory. -/
def shutil_rmtree (p : String) (fs : FS) : Except Err FS :=
  if p ∈ fs.dirs then
    .ok { fs with dirs := fs.dirs.filter (fun q => !(isUnder p q)),
                  files := fs.files.filter (fun q => !(isUnder p q)) }
  else .error .enoent

/-- An element of `self.paths`: `mkstemp` appends the `(fd, path)` tuple it
got from `tempfile.mkstemp`, `mkdtemp` appends the bare path string it got
from `tempfile.mkdtemp`. -/
inductive PathEntry where
  | tup (fd : Nat) (path : String)
  | str (path : String)
deriving DecidableEq, Repr

/-- The path a tracked entry refers to. -/
def nameOf : PathEntry → String
  | .tup _ p => p
  | .str p => p

/-- The descriptors held by a tracked entry. -/
def fdsOf : PathEntry → List Nat
  | .tup fd _ => [fd]
  | .str _ => []

/-- The `Tempfile` object: its only attribute is the list `self.paths`. -/
structure Tempfile where
  paths : List PathEntry
deriving DecidableEq, Repr

/-- Method `Tempfile.__init__`: `self.paths = []`. -/
def Tempfile.init : Tempfile := ⟨[]⟩

/-- Method `Tempfile.mkstemp`: `path = tempfile.mkstemp(...)` then
`self.paths.append(path)` then `return path`.  If the primitive raises, the
exception propagates before the append executes, so the error result carries
the unchanged object and filesystem. -/
def Tempfile.mkstemp (t : Tempfile) (fs : FS) :
    Except (Err × Tempfile × FS) ((Nat × String) × Tempfile × FS) :=
  match tempfile_mkstemp fs with
  | .error e => .error (e, t, fs)
  | .ok (r, fs') => .ok (r, ⟨t.paths ++ [.tup r.1 r.2]⟩, fs')

/-- Method `Tempfile.mkdtemp`: `path = tempfile.mkdtemp(...)` then
`self.paths.append(path)` then `return path`; same exception convention. -/
def Tempfile.mkdtemp (t : Tempfile) (fs : FS) :
    Except (Err × Tempfile × FS) (String × Tempfile × FS) :=
  match tempfile_mkdtemp fs with
  | .error e => .error (e, t, fs)
  | .ok (d, fs') => .ok (d, ⟨t.paths ++ [.str d]⟩, fs')

/-- One attempted system call of the cleanup loop. -/
inductive Sys where
  | close (fd : Nat)
  | unlink (p : String)
  | rmtree (p : String)
deriving DecidableEq, Repr

/-- The system calls cleanup issues for one tracked entry: close then unlink
for a tuple entry, rmtree for a bare path entry. -/
def sysOf : PathEntry → List Sys
  | .tup fd p => [.close fd, .unlink p]
  | .str p => [.rmtree p]

/-- Outcome of the cleanup loop: the system calls attempted in order
(instrumentation, recorded for the proofs), the filesystem afterwards, and
`some e` when the loop terminated by raising `e` (`none` = ran to the end). -/
structure CleanupOut where
  trace : List Sys
  fs : FS
  err : Option Err
deriving DecidableEq, Repr

/-- The loop body of `Tempfile.cleanup`:
`for path in self.paths: if isinstance(path, tuple): os.close(path[0]);
os.unlink(path[1]) else: shutil.rmtree(path)`.  A raised exception stops the
loop at once; side effects already performed persist. -/
def cleanupLoop : List PathEntry → FS → CleanupOut
  | [], fs => ⟨[], fs, none⟩
  | .tup fd p :: rest, fs =>
    match os_close fd fs with
    | .error e => ⟨[.close fd], fs, some e⟩
    | .ok fs1 =>
      match os_unlink p fs1 with
      | .error e => ⟨[.close fd, .unlink p], fs1, some e⟩
      | .ok fs2 =>
        let r := cleanupLoop rest fs2
        ⟨.close fd :: .unlink p :: r.trace, r.fs, r.err⟩
  | .str p :: rest, fs =>
    match shutil_rmtree p fs with
    | .error e => ⟨[.rmtree p], fs, some e⟩
    | .ok fs1 =>
      let r := cleanupLoop rest fs1
      ⟨.rmtree p :: r.trace, r.fs, r.err⟩

/-- Method `Tempfile.cleanup`: runs the loop over `self.paths`; the statement
`self.paths = []` executes only when the loop finished without raising, so on
an exception the object keeps its old `paths` list. -/
def Tempfile.cleanup (t : Tempfile) (fs : FS) : Tempfile × CleanupOut :=
  let r := cleanupLoop t.paths fs
  match r.err with
  | none => (⟨[]⟩, r)
  | some _ => (t, r)

/-- Method `Tempfile.__enter__`: `return self`. -/
def Tempfile.enter (t : Tempfile) : Tempfile := t

/-- Method `Tempfile.__exit__`: calls `self.cleanup()` unconditionally, ignoring the
exception information it is passed. -/
def Tempfile.exit (t : Tempfile) (fs : FS) (_exc : Option Err) : Tempfile × CleanupOut :=
  t.cleanup fs

/-- A scope body: given the manager and the filesystem, it returns `some e`
if it raises `e` (or `none` on normal completion) together with the manager
and filesystem afterwards. -/
def BodyFun := Tempfile → FS → Option Err × Tempfile × FS

/-- Python `with t: body` semantics: bind `t.__enter__()`, run the body, and
call `t.__exit__(...)` on every exit, normal or exceptional.  Returns the
body's exception status (which propagates, `__exit__` returning a falsy
value), the manager and the cleanup outcome. -/
def withTempfile (t : Tempfile) (fs : FS) (body : BodyFun) :
    Option Err × Tempfile × CleanupOut :=
  let t1 := t.enter
  let (e, t2, fs2) := body t1 fs
  let (t3, out) := Tempfile.exit t2 fs2 e
  (e, t3, out)

/-- A sequence of create calls on the manager. -/
inductive CreateOp where
  | file
  | dir
deriving DecidableEq, Repr

/-- Runs a sequence of `mkstemp` / `mkdtemp` calls on the manager, stopping
at the first creation error. -/
def runOps : List CreateOp → Tempfile → FS → Except Err (Tempfile × FS)
  | [], t, fs => .ok (t, fs)
  | .file :: rest, t, fs =>
    match t.mkstemp fs with
    | .error (e, _, _) => .error e
    | .ok (_, t', fs') => runOps rest t' fs'
  | .dir :: rest, t, fs =>
    match t.mkdtemp fs with
    | .error (e, _, _) => .error e
    | .ok (_, t', fs') => runOps rest t' fs'

/-- A body that performs a sequence of create calls and then either returns
normally (`exc = none`) or raises `exc`; a creation error raises as well. -/
def opsBody (ops : List CreateOp) (exc : Option Err) : BodyFun :=
  fun t fs =>
    match runOps ops t fs with
    | .ok (t', fs') => (exc, t', fs')
    | .error e => (some e, t, fs)

/-- A tracked entry is live: its descriptor is open, its path exists with the
right kind, and the path does not also name an object of the other kind. -/
def Live (fs : FS) : PathEntry → Prop
  | .tup fd p => fd ∈ fs.fds ∧ p ∈ fs.files ∧ p ∉ fs.dirs
  | .str p => p ∈ fs.dirs ∧ p ∉ fs.files

/-- Two tracked entries are separated: neither path lies under the other
(hence the paths differ, since `isUnder p p` holds) and their descriptors
are distinct. -/
def SepEnt (a b : PathEntry) : Prop :=
  isUnder (nameOf a) (nameOf b) = false ∧
  isUnder (nameOf b) (nameOf a) = false ∧
  ∀ fd ∈ fdsOf a, fd ∉ fdsOf b

/-- Every tracked entry is live and the entries are pairwise separated. -/
def EntriesOk (fs : FS) (l : List PathEntry) : Prop :=
  (∀ e ∈ l, Live fs e) ∧ l.Pairwise SepEnt

/-- A supply name is fresh: it does not exist on the filesystem and is not
nested with any tracked entry's path. -/
def FreshName (fs : FS) (l : List PathEntry) (n : String) : Prop :=
  n ∉ fs.files ∧ n ∉ fs.dirs ∧
  ∀ e ∈ l, isUnder (nameOf e) n = false ∧ isUnder n (nameOf e) = false

/-- A supply descriptor is fresh: no tracked entry holds it. -/
def FreshFd (l : List PathEntry) (fd : Nat) : Prop :=
  ∀ e ∈ l, fd ∉ fdsOf e

/-- The unique-name and descriptor supplies are well formed relative to the
current filesystem and tracked list. -/
def SupplyOk (fs : FS) (l : List PathEntry) : Prop :=
  fs.fdSupply.Nodup ∧
  (∀ n ∈ fs.nameSupply, FreshName fs l n) ∧
  (∀ fd ∈ fs.fdSupply, FreshFd l fd) ∧
  fs.nameSupply.Pairwise (fun a b => isUnder a b = false ∧ isUnder b a = false)

/-- The manager/filesystem invariant maintained by the create operations. -/
def TfInv (t : Tempfile) (fs : FS) : Prop :=
  EntriesOk fs t.paths ∧ SupplyOk fs t.paths

instance (fs : FS) (e : PathEntry) : Decidable (Live fs e) := by
  cases e <;> simp only [Live] <;> infer_instance

instance (a b : PathEntry) : Decidable (SepEnt a b) := by
  unfold SepEnt
  infer_instance

instance (fs : FS) (l : List PathEntry) : Decidable (EntriesOk fs l) := by
  unfold EntriesOk
  infer_instance

instance (fs : FS) (l : List PathEntry) (n : String) : Decidable (FreshName fs l n) := by
  unfold FreshName
  infer_instance

instance (l : List PathEntry) (fd : Nat) : Decidable (FreshFd l fd) := by
  unfold FreshFd
  infer_instance

instance (fs : FS) (l : List PathEntry) : Decidable (SupplyOk fs l) := by
  unfold SupplyOk
  infer_instance

instance (t : Tempfile) (fs : FS) : Decidable (TfInv t fs) := by
  unfold TfInv
  infer_instance

/-! ### Helper lemmas -/

theorem isUnder_self (p : String) : isUnder p p = true := by
  simp [isUnder]

theorem ne_of_isUnder_eq_false {a b : String} (h : isUnder a b = false) : b ≠ a := by
  intro hab
  subst hab
  rw [isUnder_self b] at h
  cases h

theorem mem_filter_bne {α : Type} [BEq α] [LawfulBEq α] {a b : α} {l : List α} :
    a ∈ l.filter (· != b) ↔ a ∈ l ∧ a ≠ b := by
  rw [List.mem_filter, bne_iff_ne]

theorem filter_sub {α : Type} (p : α → Bool) (l : List α) : l.filter p ⊆ l :=
  fun _ ha => (List.mem_filter.mp ha).1

theorem mem_filter_notUnder {a r : String} {l : List String} :
    a ∈ l.filter (fun q => !(isUnder r q)) ↔ a ∈ l ∧ isUnder r a = false := by
  rw [List.mem_filter]
  simp only [Bool.not_eq_true']

/-- The cleanup loop never touches the supplies or the disk-full flag, and it
only ever removes files and directories. -/
theorem cleanupLoop_frame (l : List PathEntry) (fs : FS) :
    (cleanupLoop l fs).fs.nameSupply = fs.nameSupply ∧
    (cleanupLoop l fs).fs.fdSupply = fs.fdSupply ∧
    (cleanupLoop l fs).fs.diskFull = fs.diskFull ∧
    (cleanupLoop l fs).fs.files ⊆ fs.files ∧
    (cleanupLoop l fs).fs.dirs ⊆ fs.dirs := by
  induction l generalizing fs with
  | nil => simp [cleanupLoop]
  | cons e rest ih =>
    cases e with
    | tup fd p =>
      by_cases h1 : fd ∈ fs.fds
      · by_cases h2 : p ∈ fs.files
        · have := ih { fs with fds := fs.fds.filter (· != fd),
                               files := fs.files.filter (· != p) }
          simp only [cleanupLoop, os_close, os_unlink, if_pos h1] at *
          simp only [if_pos h2] at *
          refine ⟨this.1, this.2.1, this.2.2.1, ?_, this.2.2.2.2⟩
          exact fun a ha => filter_sub _ _ (this.2.2.2.1 ha)
        · simp [cleanupLoop, os_close, os_unlink, if_pos h1, if_neg h2,
                List.Subset.refl, filter_sub]
      · simp [cleanupLoop, os_close, if_neg h1, List.Subset.refl]
    | str p =>
      by_cases h1 : p ∈ fs.dirs
      · have := ih { fs with dirs := fs.dirs.filter (fun q => !(isUnder p q)),
                             files := fs.files.filter (fun q => !(isUnder p q)) }
        simp only [cleanupLoop, shutil_rmtree, if_pos h1] at *
        refine ⟨this.1, this.2.1, this.2.2.1, ?_, ?_⟩
        · exact fun a ha => filter_sub _ _ (this.2.2.2.1 ha)
        · exact fun a ha => filter_sub _ _ (this.2.2.2.2 ha)
      · simp [cleanupLoop, shutil_rmtree, if_neg h1, List.Subset.refl]

/-- Closing and unlinking one tracked file leaves any separated live entry
live. -/
theorem live_after_close_unlink {fd : Nat} {p : String} {e : PathEntry} {fs : FS}
    (hl : Live fs e) (hs : SepEnt (.tup fd p) e) :
    Live { fs with fds := fs.fds.filter (· != fd),
                   files := fs.files.filter (· != p) } e := by
  cases e with
  | tup fd' p' =>
    obtain ⟨h1, h2, h3⟩ := hl
    obtain ⟨hu1, _, hfds⟩ := hs
    have hne : p' ≠ p := ne_of_isUnder_eq_false hu1
    have hfd : fd' ≠ fd := by
      intro he
      exact hfds fd (by simp [fdsOf]) (by simp [fdsOf, he])
    exact ⟨mem_filter_bne.mpr ⟨h1, hfd⟩, mem_filter_bne.mpr ⟨h2, hne⟩, h3⟩
  | str p' =>
    obtain ⟨h1, h2⟩ := hl
    exact ⟨h1, fun hm => h2 (filter_sub _ _ hm)⟩

/-- Recursively deleting one tracked directory leaves any separated live
entry live. -/
theorem live_after_rmtree {p : String} {e : PathEntry} {fs : FS}
    (hl : Live fs e) (hs : SepEnt (.str p) e) :
    Live { fs with dirs := fs.dirs.filter (fun q => !(isUnder p q)),
                   files := fs.files.filter (fun q => !(isUnder p q)) } e := by
  cases e with
  | tup fd' p' =>
    obtain ⟨h1, h2, h3⟩ := hl
    exact ⟨h1, mem_filter_notUnder.mpr ⟨h2, hs.1⟩, fun hm => h3 (filter_sub _ _ hm)⟩
  | str p' =>
    obtain ⟨h1, h2⟩ := hl
    exact ⟨mem_filter_notUnder.mpr ⟨h1, hs.1⟩, fun hm => h2 (filter_sub _ _ hm)⟩

/-- When every tracked entry is live and the entries are pairwise separated,
the cleanup loop runs to the end without raising, attempts exactly the
close/unlink/rmtree calls of the entries in insertion order, and afterwards
none of the tracked paths exists. -/
theorem cleanupLoop_ok (l : List PathEntry) (fs : FS) (h : EntriesOk fs l) :
    (cleanupLoop l fs).err = none ∧
    (cleanupLoop l fs).trace = l.flatMap sysOf ∧
    ∀ e ∈ l, ¬ (cleanupLoop l fs).fs.pathExists (nameOf e) := by
  induction l generalizing fs with
  | nil => simp [cleanupLoop]
  | cons a rest ih =>
    obtain ⟨hlive, hpw⟩ := h
    have hsep := (List.pairwise_cons.mp hpw).1
    have hpw' := (List.pairwise_cons.mp hpw).2
    have hrest : ∀ e ∈ rest, Live fs e := fun e he => hlive e (List.mem_cons_of_mem _ he)
    cases a with
    | tup fd p =>
      obtain ⟨hfd, hpf, hpd⟩ := hlive (.tup fd p) (List.mem_cons_self _ _)
      have hcl : cleanupLoop (.tup fd p :: rest) fs =
          ⟨.close fd :: .unlink p ::
             (cleanupLoop rest { fs with fds := fs.fds.filter (· != fd),
                                         files := fs.files.filter (· != p) }).trace,
           (cleanupLoop rest { fs with fds := fs.fds.filter (· != fd),
                                       files := fs.files.filter (· != p) }).fs,
           (cleanupLoop rest { fs with fds := fs.fds.filter (· != fd),
                                       files := fs.files.filter (· != p) }).err⟩ := by
        simp [cleanupLoop, os_close, os_unlink, if_pos hfd, hpf]
      have hok : EntriesOk { fs with fds := fs.fds.filter (· != fd),
                                     files := fs.files.filter (· != p) } rest :=
        ⟨fun e he => live_after_close_unlink (hrest e he) (hsep e he), hpw'⟩
      obtain ⟨ih1, ih2, ih3⟩ := ih _ hok
      rw [hcl]
      refine ⟨ih1, by simp [sysOf, ih2], ?_⟩
      intro e he
      rcases List.mem_cons.mp he with he | he
      · subst he
        have hframe := cleanupLoop_frame rest { fs with fds := fs.fds.filter (· != fd),
                                                        files := fs.files.filter (· != p) }
        intro hex
        rcases hex with hx | hx
        · have := hframe.2.2.2.1 hx
          exact (mem_filter_bne.mp this).2 rfl
        · exact hpd (hframe.2.2.2.2 hx)
      · exact ih3 e he
    | str p =>
      obtain ⟨hpd, hpf⟩ := hlive (.str p) (List.mem_cons_self _ _)
      have hcl : cleanupLoop (.str p :: rest) fs =
          ⟨.rmtree p ::
             (cleanupLoop rest { fs with dirs := fs.dirs.filter (fun q => !(isUnder p q)),
                                         files := fs.files.filter (fun q => !(isUnder p q)) }).trace,
           (cleanupLoop rest { fs with dirs := fs.dirs.filter (fun q => !(isUnder p q)),
                                       files := fs.files.filter (fun q => !(isUnder p q)) }).fs,
           (cleanupLoop rest { fs with dirs := fs.dirs.filter (fun q => !(isUnder p q)),
                                       files := fs.files.filter (fun q => !(isUnder p q)) }).err⟩ := by
        simp [cleanupLoop, shutil_rmtree, if_pos hpd]
      have hok : EntriesOk { fs with dirs := fs.dirs.filter (fun q => !(isUnder p q)),
                                     files := fs.files.filter (fun q => !(isUnder p q)) } rest :=
        ⟨fun e he => live_after_rmtree (hrest e he) (hsep e he), hpw'⟩
      obtain ⟨ih1, ih2, ih3⟩ := ih _ hok
      rw [hcl]
      refine ⟨ih1, by simp [sysOf, ih2], ?_⟩
      intro e he
      rcases List.mem_cons.mp he with he | he
      · subst he
        have hframe := cleanupLoop_frame rest
            { fs with dirs := fs.dirs.filter (fun q => !(isUnder p q)),
                      files := fs.files.filter (fun q => !(isUnder p q)) }
        intro hex
        rcases hex with hx | hx
        · exact hpf (filter_sub _ _ (hframe.2.2.2.1 hx))
        · have := hframe.2.2.2.2 hx
          have h2 := (mem_filter_notUnder.mp this).2
          simp [nameOf, isUnder_self] at h2
      · exact ih3 e he

/-- Characterisation of a successful `tempfile.mkstemp` call. -/
theorem tempfile_mkstemp_ok {fs : FS} {r : Nat × String} {fs' : FS}
    (h : tempfile_mkstemp fs = .ok (r, fs')) :
    fs.diskFull = false ∧
    fs.fdSupply = r.1 :: fs'.fdSupply ∧ fs.nameSupply = r.2 :: fs'.nameSupply ∧
    fs'.files = fs.files ++ [r.2] ∧ fs'.fds = fs.fds ++ [r.1] ∧
    fs'.dirs = fs.dirs ∧ fs'.diskFull = false := by
  by_cases hdf : fs.diskFull = true
  · simp [tempfile_mkstemp, hdf] at h
  · rw [Bool.not_eq_true] at hdf
    cases hfd : fs.fdSupply with
    | nil => simp [tempfile_mkstemp, hdf, hfd] at h
    | cons fd fdRest =>
      cases hn : fs.nameSupply with
      | nil => simp [tempfile_mkstemp, hdf, hfd, hn] at h
      | cons n nRest =>
        have heq : tempfile_mkstemp fs =
            .ok ((fd, n), { fs with files := fs.files ++ [n], fds := fs.fds ++ [fd],
                                    fdSupply := fdRest, nameSupply := nRest }) := by
          simp [tempfile_mkstemp, hdf, hfd, hn]
        rw [heq] at h
        injection h with h1
        rw [Prod.mk.injEq] at h1
        obtain ⟨h1, h2⟩ := h1
        subst h1
        subst h2
        simp [hdf, hfd, hn]

/-- Characterisation of a successful `tempfile.mkdtemp` call. -/
theorem tempfile_mkdtemp_ok {fs : FS} {d : String} {fs' : FS}
    (h : tempfile_mkdtemp fs = .ok (d, fs')) :
    fs.diskFull = false ∧
    fs.nameSupply = d :: fs'.nameSupply ∧
    fs'.dirs = fs.dirs ++ [d] ∧ fs'.files = fs.files ∧ fs'.fds = fs.fds ∧
    fs'.fdSupply = fs.fdSupply ∧ fs'.diskFull = false := by
  by_cases hdf : fs.diskFull = true
  · simp [tempfile_mkdtemp, hdf] at h
  · rw [Bool.not_eq_true] at hdf
    cases hn : fs.nameSupply with
    | nil => simp [tempfile_mkdtemp, hdf, hn] at h
    | cons n nRest =>
      have heq : tempfile_mkdtemp fs =
          .ok (n, { fs with dirs := fs.dirs ++ [n], nameSupply := nRest }) := by
        simp [tempfile_mkdtemp, hdf, hn]
      rw [heq] at h
      injection h with h1
      rw [Prod.mk.injEq] at h1
      obtain ⟨h1, h2⟩ := h1
      subst h1
      subst h2
      simp [hdf, hn]

/-- Splitting a successful `Tempfile.mkstemp` call into the primitive call
and the append. -/
theorem Tempfile.mkstemp_split {t : Tempfile} {fs : FS} {r : Nat × String}
    {t' : Tempfile} {fs' : FS}
    (h : t.mkstemp fs = .ok (r, t', fs')) :
    tempfile_mkstemp fs = .ok (r, fs') ∧ t'.paths = t.paths ++ [.tup r.1 r.2] := by
  unfold Tempfile.mkstemp at h
  cases hm : tempfile_mkstemp fs with
  | error e => rw [hm] at h; cases h
  | ok v =>
    rw [hm] at h
    obtain ⟨r0, fs0⟩ := v
    injection h with h1
    rw [Prod.mk.injEq] at h1
    obtain ⟨h1, h2⟩ := h1
    rw [Prod.mk.injEq] at h2
    obtain ⟨h2, h3⟩ := h2
    subst h1
    subst h3
    exact ⟨rfl, by rw [← h2]⟩

/-- Splitting a successful `Tempfile.mkdtemp` call into the primitive call
and the append. -/
theorem Tempfile.mkdtemp_split {t : Tempfile} {fs : FS} {d : String}
    {t' : Tempfile} {fs' : FS}
    (h : t.mkdtemp fs = .ok (d, t', fs')) :
    tempfile_mkdtemp fs = .ok (d, fs') ∧ t'.paths = t.paths ++ [.str d] := by
  unfold Tempfile.mkdtemp at h
  cases hm : tempfile_mkdtemp fs with
  | error e => rw [hm] at h; cases h
  | ok v =>
    rw [hm] at h
    obtain ⟨d0, fs0⟩ := v
    injection h with h1
    rw [Prod.mk.injEq] at h1
    obtain ⟨h1, h2⟩ := h1
    rw [Prod.mk.injEq] at h2
    obtain ⟨h2, h3⟩ := h2
    subst h1
    subst h3
    exact ⟨rfl, by rw [← h2]⟩

/-- A successful `mkstemp` preserves the invariant and appends exactly the
returned `(fd, path)` pair to the tracked list. -/
theorem Tempfile.mkstemp_inv {t : Tempfile} {fs : FS} {r : Nat × String}
    {t' : Tempfile} {fs' : FS}
    (hinv : TfInv t fs) (h : t.mkstemp fs = .ok (r, t', fs')) :
    TfInv t' fs' ∧ t'.paths = t.paths ++ [.tup r.1 r.2] := by
  obtain ⟨hm, hp⟩ := Tempfile.mkstemp_split h
  obtain ⟨hdf, hfdS, hnS, hfiles, hfds, hdirs, hdf'⟩ := tempfile_mkstemp_ok hm
  obtain ⟨⟨hlive, hpw⟩, hfdN, hfreshN, hfreshF, hppw⟩ := hinv
  have hfreshn : FreshName fs t.paths r.2 :=
    hfreshN r.2 (by rw [hnS]; exact List.mem_cons_self _ _)
  have hfreshfd : FreshFd t.paths r.1 :=
    hfreshF r.1 (by rw [hfdS]; exact List.mem_cons_self _ _)
  rw [hfdS] at hfdN
  rw [hnS] at hppw
  have hppw1 := (List.pairwise_cons.mp hppw).1
  have hppw2 := (List.pairwise_cons.mp hppw).2
  have hfdN1 := (List.nodup_cons.mp hfdN).1
  have hfdN2 := (List.nodup_cons.mp hfdN).2
  refine ⟨⟨⟨?_, ?_⟩, hfdN2, ?_, ?_, hppw2⟩, hp⟩
  · -- every entry is live in fs'
    rw [hp]
    intro e he
    rcases List.mem_append.mp he with he | he
    · cases e with
      | tup fd' p' =>
        obtain ⟨h1, h2, h3⟩ := hlive _ he
        refine ⟨by rw [hfds]; exact List.mem_append_left _ h1,
                by rw [hfiles]; exact List.mem_append_left _ h2,
                by rw [hdirs]; exact h3⟩
      | str p' =>
        obtain ⟨h1, h2⟩ := hlive _ he
        refine ⟨by rw [hdirs]; exact h1, ?_⟩
        rw [hfiles]
        intro hmem
        rcases List.mem_append.mp hmem with hx | hx
        · exact h2 hx
        · have := (hfreshn.2.2 _ he).1
          have hne := ne_of_isUnder_eq_false this
          exact hne (List.mem_singleton.mp hx).symm
    · rw [List.mem_singleton.mp he]
      refine ⟨by rw [hfds]; exact List.mem_append_right _ (List.mem_singleton_self _),
              by rw [hfiles]; exact List.mem_append_right _ (List.mem_singleton_self _),
              by rw [hdirs]; exact hfreshn.2.1⟩
  · -- pairwise separation
    rw [hp, List.pairwise_append]
    refine ⟨hpw, List.pairwise_singleton _ _, ?_⟩
    intro a ha b hb
    rw [List.mem_singleton.mp hb]
    have hf := hfreshn.2.2 a ha
    refine ⟨hf.1, hf.2, ?_⟩
    intro x hx hmem
    have : x = r.1 := by simpa [fdsOf] using hmem
    subst this
    exact hfreshfd a ha hx
  · -- remaining names are fresh
    intro n hn
    have hn' : n ∈ fs.nameSupply := by rw [hnS]; exact List.mem_cons_of_mem _ hn
    have hfn := hfreshN n hn'
    have hhead := hppw1 n hn
    refine ⟨?_, by rw [hdirs]; exact hfn.2.1, ?_⟩
    · rw [hfiles]
      intro hmem
      rcases List.mem_append.mp hmem with hx | hx
      · exact hfn.1 hx
      · exact ne_of_isUnder_eq_false hhead.1 (List.mem_singleton.mp hx)
    · intro e he
      rw [hp] at he
      rcases List.mem_append.mp he with he | he
      · exact hfn.2.2 e he
      · rw [List.mem_singleton.mp he]
        exact ⟨hhead.1, hhead.2⟩
  · -- remaining descriptors are fresh
    intro fd hfd'
    have hfd'' : fd ∈ fs.fdSupply := by rw [hfdS]; exact List.mem_cons_of_mem _ hfd'
    intro e he
    rw [hp] at he
    rcases List.mem_append.mp he with he | he
    · exact hfreshF fd hfd'' e he
    · rw [List.mem_singleton.mp he]
      intro hmem
      have : fd = r.1 := by simpa [fdsOf] using hmem
      subst this
      exact hfdN1 hfd'

/-- A successful `mkdtemp` preserves the invariant and appends exactly the
returned path to the tracked list. -/
theorem Tempfile.mkdtemp_inv {t : Tempfile} {fs : FS} {d : String}
    {t' : Tempfile} {fs' : FS}
    (hinv : TfInv t fs) (h : t.mkdtemp fs = .ok (d, t', fs')) :
    TfInv t' fs' ∧ t'.paths = t.paths ++ [.str d] := by
  obtain ⟨hm, hp⟩ := Tempfile.mkdtemp_split h
  obtain ⟨hdf, hnS, hdirs, hfiles, hfds, hfdS, hdf'⟩ := tempfile_mkdtemp_ok hm
  obtain ⟨⟨hlive, hpw⟩, hfdN, hfreshN, hfreshF, hppw⟩ := hinv
  have hfreshn : FreshName fs t.paths d :=
    hfreshN d (by rw [hnS]; exact List.mem_cons_self _ _)
  rw [hnS] at hppw
  have hppw1 := (List.pairwise_cons.mp hppw).1
  have hppw2 := (List.pairwise_cons.mp hppw).2
  refine ⟨⟨⟨?_, ?_⟩, by rw [hfdS]; exact hfdN, ?_, ?_, hppw2⟩, hp⟩
  · -- every entry is live in fs'
    rw [hp]
    intro e he
    rcases List.mem_append.mp he with he | he
    · cases e with
      | tup fd' p' =>
        obtain ⟨h1, h2, h3⟩ := hlive _ he
        refine ⟨by rw [hfds]; exact h1, by rw [hfiles]; exact h2, ?_⟩
        rw [hdirs]
        intro hmem
        rcases List.mem_append.mp hmem with hx | hx
        · exact h3 hx
        · have := (hfreshn.2.2 _ he).1
          exact ne_of_isUnder_eq_false this (List.mem_singleton.mp hx).symm
      | str p' =>
        obtain ⟨h1, h2⟩ := hlive _ he
        exact ⟨by rw [hdirs]; exact List.mem_append_left _ h1,
               by rw [hfiles]; exact h2⟩
    · rw [List.mem_singleton.mp he]
      exact ⟨by rw [hdirs]; exact List.mem_append_right _ (List.mem_singleton_self _),
             by rw [hfiles]; exact hfreshn.1⟩
  · -- pairwise separation
    rw [hp, List.pairwise_append]
    refine ⟨hpw, List.pairwise_singleton _ _, ?_⟩
    intro a ha b hb
    rw [List.mem_singleton.mp hb]
    have hf := hfreshn.2.2 a ha
    exact ⟨hf.1, hf.2, fun x _ hmem => by simp [fdsOf] at hmem⟩
  · -- remaining names are fresh
    intro n hn
    have hn' : n ∈ fs.nameSupply := by rw [hnS]; exact List.mem_cons_of_mem _ hn
    have hfn := hfreshN n hn'
    have hhead := hppw1 n hn
    refine ⟨by rw [hfiles]; exact hfn.1, ?_, ?_⟩
    · rw [hdirs]
      intro hmem
      rcases List.mem_append.mp hmem with hx | hx
      · exact hfn.2.1 hx
      · exact ne_of_isUnder_eq_false hhead.1 (List.mem_singleton.mp hx)
    · intro e he
      rw [hp] at he
      rcases List.mem_append.mp he with he | he
      · exact hfn.2.2 e he
      · rw [List.mem_singleton.mp he]
        exact ⟨hhead.1, hhead.2⟩
  · -- remaining descriptors are fresh
    intro fd hfd'
    rw [hfdS] at hfd'
    intro e he
    rw [hp] at he
    rcases List.mem_append.mp he with he | he
    · exact hfreshF fd hfd' e he
    · rw [List.mem_singleton.mp he]
      intro hmem
      simp [fdsOf] at hmem

/-- Running a sequence of create calls preserves the invariant and only ever
appends to the tracked list. -/
theorem runOps_inv {ops : List CreateOp} {t : Tempfile} {fs : FS}
    {t' : Tempfile} {fs' : FS}
    (hinv : TfInv t fs) (h : runOps ops t fs = .ok (t', fs')) :
    TfInv t' fs' ∧ ∃ newEntries, t'.paths = t.paths ++ newEntries := by
  induction ops generalizing t fs with
  | nil =>
    simp only [runOps, Except.ok.injEq, Prod.mk.injEq] at h
    obtain ⟨h1, h2⟩ := h
    subst h1
    subst h2
    exact ⟨hinv, [], by simp⟩
  | cons op rest ih =>
    cases op with
    | file =>
      cases hm : t.mkstemp fs with
      | error err =>
        rw [show runOps (CreateOp.file :: rest) t fs =
              (match t.mkstemp fs with
               | .error (e, _, _) => .error e
               | .ok (_, t1, fs1) => runOps rest t1 fs1) from rfl, hm] at h
        obtain ⟨e0, t0, fs0⟩ := err
        cases h
      | ok v =>
        obtain ⟨r, t1, fs1⟩ := v
        rw [show runOps (CreateOp.file :: rest) t fs =
              (match t.mkstemp fs with
               | .error (e, _, _) => .error e
               | .ok (_, t1, fs1) => runOps rest t1 fs1) from rfl, hm] at h
        obtain ⟨hinv1, hmk⟩ := Tempfile.mkstemp_inv hinv hm
        obtain ⟨hinv', new, hnew⟩ := ih hinv1 h
        exact ⟨hinv', PathEntry.tup r.1 r.2 :: new,
          by rw [hnew, hmk, List.append_assoc]; rfl⟩
    | dir =>
      cases hm : t.mkdtemp fs with
      | error err =>
        rw [show runOps (CreateOp.dir :: rest) t fs =
              (match t.mkdtemp fs with
               | .error (e, _, _) => .error e
               | .ok (_, t1, fs1) => runOps rest t1 fs1) from rfl, hm] at h
        obtain ⟨e0, t0, fs0⟩ := err
        cases h
      | ok v =>
        obtain ⟨d, t1, fs1⟩ := v
        rw [show runOps (CreateOp.dir :: rest) t fs =
              (match t.mkdtemp fs with
               | .error (e, _, _) => .error e
               | .ok (_, t1, fs1) => runOps rest t1 fs1) from rfl, hm] at h
        obtain ⟨hinv1, hmk⟩ := Tempfile.mkdtemp_inv hinv hm
        obtain ⟨hinv', new, hnew⟩ := ih hinv1 h
        exact ⟨hinv', PathEntry.str d :: new,
          by rw [hnew, hmk, List.append_assoc]; rfl⟩

/-- The cleanup outcome (trace, filesystem, error) is the loop's outcome in
both the normal and the raising case. -/
theorem Tempfile.cleanup_snd (t : Tempfile) (fs : FS) :
    (t.cleanup fs).2 = cleanupLoop t.paths fs := by
  cases hc : (cleanupLoop t.paths fs).err <;> simp [Tempfile.cleanup, hc]

/-- When the loop runs to the end, `self.paths` is reset to the empty list. -/
theorem Tempfile.cleanup_of_err_none {t : Tempfile} {fs : FS}
    (h : (cleanupLoop t.paths fs).err = none) :
    (t.cleanup fs).1 = ⟨[]⟩ := by
  simp [Tempfile.cleanup, h]

/-- When the loop raises, `self.paths` is left unchanged. -/
theorem Tempfile.cleanup_of_err_some {t : Tempfile} {fs : FS} {e : Err}
    (h : (cleanupLoop t.paths fs).err = some e) :
    (t.cleanup fs).1 = t := by
  simp [Tempfile.cleanup, h]

/-- The loop applied to a single entry only attempts that entry's system
calls. -/
theorem cleanupLoop_single_trace (a : PathEntry) (fs : FS) :
    ∀ op ∈ (cleanupLoop [a] fs).trace, op ∈ sysOf a := by
  cases a with
  | tup fd p =>
    cases hc : os_close fd fs with
    | error e => simp [cleanupLoop, hc, sysOf]
    | ok fs1 =>
      cases hu : os_unlink p fs1 with
      | error e => simp [cleanupLoop, hc, hu, sysOf]
      | ok fs2 => simp [cleanupLoop, hc, hu, sysOf]
  | str p =>
    cases hr : shutil_rmtree p fs with
    | error e => simp [cleanupLoop, hr, sysOf]
    | ok fs1 => simp [cleanupLoop, hr, sysOf]

/-- When the loop raises, the tracked list splits as
`done ++ bad :: rest`: every entry of `done` was fully processed, the error
is the one `bad` alone raises on the intermediate filesystem, and the
attempted calls are exactly those of `done` followed by the attempts on
`bad` — nothing of `rest` is attempted. -/
theorem cleanupLoop_err_split {l : List PathEntry} {fs : FS} {e : Err}
    (h : (cleanupLoop l fs).err = some e) :
    ∃ done bad rest fsd,
      l = done ++ bad :: rest ∧
      cleanupLoop done fs = ⟨done.flatMap sysOf, fsd, none⟩ ∧
      (cleanupLoop [bad] fsd).err = some e ∧
      (cleanupLoop l fs).trace = done.flatMap sysOf ++ (cleanupLoop [bad] fsd).trace ∧
      (cleanupLoop l fs).fs = (cleanupLoop [bad] fsd).fs := by
  induction l generalizing fs with
  | nil => simp [cleanupLoop] at h
  | cons a rest ih =>
    cases a with
    | tup fd p =>
      cases hc : os_close fd fs with
      | error e' =>
        refine ⟨[], .tup fd p, rest, fs, rfl, by simp [cleanupLoop], ?_, ?_, ?_⟩ <;>
          simp [cleanupLoop, hc] at h ⊢ <;> simp [h]
      | ok fs1 =>
        cases hu : os_unlink p fs1 with
        | error e' =>
          refine ⟨[], .tup fd p, rest, fs, rfl, by simp [cleanupLoop], ?_, ?_, ?_⟩ <;>
            simp [cleanupLoop, hc, hu] at h ⊢ <;> simp [h]
        | ok fs2 =>
          have h' : (cleanupLoop rest fs2).err = some e := by
            simpa [cleanupLoop, hc, hu] using h
          obtain ⟨done, bad, rest', fsd, hsplit, hdone, hbad, htrace, hfs⟩ := ih h'
          refine ⟨.tup fd p :: done, bad, rest', fsd, by simp [hsplit], ?_, hbad, ?_, ?_⟩
          · simp [cleanupLoop, hc, hu, hdone, sysOf]
          · simp [cleanupLoop, hc, hu, htrace, sysOf]
          · simp [cleanupLoop, hc, hu, hfs]
    | str p =>
      cases hr : shutil_rmtree p fs with
      | error e' =>
        refine ⟨[], .str p, rest, fs, rfl, by simp [cleanupLoop], ?_, ?_, ?_⟩ <;>
          simp [cleanupLoop, hr] at h ⊢ <;> simp [h]
      | ok fs1 =>
        have h' : (cleanupLoop rest fs1).err = some e := by
          simpa [cleanupLoop, hr] using h
        obtain ⟨done, bad, rest', fsd, hsplit, hdone, hbad, htrace, hfs⟩ := ih h'
        refine ⟨.str p :: done, bad, rest', fsd, by simp [hsplit], ?_, hbad, ?_, ?_⟩
        · simp [cleanupLoop, hr, hdone, sysOf]
        · simp [cleanupLoop, hr, htrace, sysOf]
        · simp [cleanupLoop, hr, hfs]

/-- A live entry's path exists. -/
theorem live_pathExists {fs : FS} {e : PathEntry} (h : Live fs e) :
    fs.pathExists (nameOf e) := by
  cases e with
  | tup fd p => exact Or.inl h.2.1
  | str p => exact Or.inr h.1

/-- After any run of create calls from an invariant state, cleanup raises no
error, attempts exactly the entries' system calls in insertion order, removes
every tracked path, and resets the tracked list; moreover the pre-run entries
are still tracked after the run. -/
theorem run_cleanup_ok {ops : List CreateOp} {t0 : Tempfile} {fs0 : FS}
    {t : Tempfile} {fs1 : FS}
    (hwf : TfInv t0 fs0)
    (hrun : runOps ops t0 fs0 = .ok (t, fs1)) :
    (t.cleanup fs1).2.err = none ∧
    (t.cleanup fs1).2.trace = t.paths.flatMap sysOf ∧
    (∀ e ∈ t.paths, fs1.pathExists (nameOf e)) ∧
    (∀ e ∈ t.paths, ¬ (t.cleanup fs1).2.fs.pathExists (nameOf e)) ∧
    (t.cleanup fs1).1.paths = [] ∧
    (∃ newEntries, t.paths = t0.paths ++ newEntries) := by
  obtain ⟨hinv, hpre⟩ := runOps_inv hwf hrun
  obtain ⟨hok, htrace, hgone⟩ := cleanupLoop_ok t.paths fs1 hinv.1
  rw [Tempfile.cleanup_snd]
  refine ⟨hok, htrace, ?_, hgone, ?_, hpre⟩
  · exact fun e he => live_pathExists (hinv.1.1 e he)
  · rw [Tempfile.cleanup_of_err_none hok]

/-! ### Claim theorems -/

/-- C1: for every manager whose tracked list was built by a sequence of
create-file / create-directory calls (from a well-formed initial filesystem),
cleanup visits the tracked handles in insertion order — close then unlink for
each file handle, rmtree for each directory handle — no deletion error
occurs, every created path exists before cleanup and no longer exists
afterwards, and the tracked list is empty. -/
theorem c1_create_cleanup_removes_all {ops : List CreateOp} {fs0 : FS}
    {t : Tempfile} {fs1 : FS}
    (hwf : TfInv Tempfile.init fs0)
    (hrun : runOps ops Tempfile.init fs0 = .ok (t, fs1)) :
    (t.cleanup fs1).2.err = none ∧
    (t.cleanup fs1).2.trace = t.paths.flatMap sysOf ∧
    (∀ e ∈ t.paths, fs1.pathExists (nameOf e)) ∧
    (∀ e ∈ t.paths, ¬ (t.cleanup fs1).2.fs.pathExists (nameOf e)) ∧
    (t.cleanup fs1).1.paths = [] := by
  obtain ⟨h1, h2, h3, h4, h5, _⟩ := run_cleanup_ok hwf hrun
  exact ⟨h1, h2, h3, h4, h5⟩

/-- Witness for C1 at a concrete run: create one file and one directory. -/
theorem c1_create_cleanup_removes_all_witness :
    ((Tempfile.mk [.tup 7 "a", .str "b"]).cleanup
        ⟨["a"], ["b"], [7], [], [], false⟩).2.err = none ∧
    ((Tempfile.mk [.tup 7 "a", .str "b"]).cleanup
        ⟨["a"], ["b"], [7], [], [], false⟩).1.paths = [] := by
  have h := @c1_create_cleanup_removes_all [CreateOp.file, CreateOp.dir]
    ⟨[], [], [], ["a", "b"], [7], false⟩
    ⟨[.tup 7 "a", .str "b"]⟩
    ⟨["a"], ["b"], [7], [], [], false⟩
    (by decide) (by rfl)
  exact ⟨h.1, h.2.2.2.2⟩

/-- C2: used as a scoped resource, scope entry returns the manager ready for
use and scope exit — normal (`exc = none`) or via a raised exception
(`exc = some e`) — invokes `cleanup()` unconditionally exactly once: the
with-statement's outcome is exactly one cleanup call applied after the body,
and the resources created inside the scope no longer exist afterwards. -/
theorem c2_scoped_exit_invokes_cleanup {ops : List CreateOp} {exc : Option Err}
    {fs0 : FS} {t1 : Tempfile} {fs1 : FS}
    (hwf : TfInv Tempfile.init fs0)
    (hrun : runOps ops Tempfile.init fs0 = .ok (t1, fs1)) :
    withTempfile Tempfile.init fs0 (opsBody ops exc)
      = (exc, (t1.cleanup fs1).1, (t1.cleanup fs1).2) ∧
    (t1.cleanup fs1).2.err = none ∧
    (∀ e ∈ t1.paths, ¬ (t1.cleanup fs1).2.fs.pathExists (nameOf e)) ∧
    (t1.cleanup fs1).1.paths = [] := by
  obtain ⟨h1, _, _, h4, h5, _⟩ := run_cleanup_ok hwf hrun
  refine ⟨?_, h1, h4, h5⟩
  simp [withTempfile, opsBody, Tempfile.enter, Tempfile.exit, hrun]

/-- Witness for C2 at a concrete scope that raises after creating a file and
a directory. -/
theorem c2_scoped_exit_invokes_cleanup_witness :
    withTempfile Tempfile.init ⟨[], [], [], ["a", "b"], [7], false⟩
        (opsBody [CreateOp.file, CreateOp.dir] (some Err.enoent))
      = (some Err.enoent,
         ((Tempfile.mk [.tup 7 "a", .str "b"]).cleanup
             ⟨["a"], ["b"], [7], [], [], false⟩).1,
         ((Tempfile.mk [.tup 7 "a", .str "b"]).cleanup
             ⟨["a"], ["b"], [7], [], [], false⟩).2) :=
  (c2_scoped_exit_invokes_cleanup (by decide) (by rfl)).1

/-- C10: `__enter__` returns the very same manager object unchanged, so
resources tracked before the scope was entered are also removed by the
cleanup performed on scope exit, not only those created inside the scope. -/
theorem c10_enter_returns_same_manager {t0 : Tempfile} {fs0 : FS}
    {ops : List CreateOp} {exc : Option Err} {t1 : Tempfile} {fs1 : FS}
    (hwf : TfInv t0 fs0)
    (hrun : runOps ops t0 fs0 = .ok (t1, fs1)) :
    Tempfile.enter t0 = t0 ∧
    (∃ newEntries, t1.paths = t0.paths ++ newEntries) ∧
    (withTempfile t0 fs0 (opsBody ops exc)).2.2.err = none ∧
    (∀ e ∈ t0.paths,
       ¬ (withTempfile t0 fs0 (opsBody ops exc)).2.2.fs.pathExists (nameOf e)) := by
  obtain ⟨h1, _, _, h4, _, new, hnew⟩ := run_cleanup_ok hwf hrun
  have hw : withTempfile t0 fs0 (opsBody ops exc)
      = (exc, (t1.cleanup fs1).1, (t1.cleanup fs1).2) := by
    simp [withTempfile, opsBody, Tempfile.enter, Tempfile.exit, hrun]
  refine ⟨rfl, ⟨new, hnew⟩, by rw [hw]; exact h1, ?_⟩
  intro e he
  rw [hw]
  exact h4 e (by rw [hnew]; exact List.mem_append_left _ he)

/-- Witness for C10: a manager tracking a directory before scope entry. -/
theorem c10_enter_returns_same_manager_witness :
    Tempfile.enter (Tempfile.mk [.str "z"]) = Tempfile.mk [.str "z"] ∧
    (withTempfile (Tempfile.mk [.str "z"]) ⟨[], ["z"], [], ["a"], [7], false⟩
        (opsBody [CreateOp.file] none)).2.2.err = none := by
  have h := @c10_enter_returns_same_manager ⟨[.str "z"]⟩
    ⟨[], ["z"], [], ["a"], [7], false⟩ [CreateOp.file] none
    ⟨[.str "z", .tup 7 "a"]⟩ ⟨["a"], ["z"], [7], [], [], false⟩
    (by decide) (by rfl)
  exact ⟨h.1, h.2.2.1⟩

/-- C3 counterexample: cleanup of a manager tracking a directory whose path
no longer exists terminates by raising, yet the tracked list is NOT empty
afterwards — it still holds the directory entry, refuting the claim that
`tracked` is empty after a cleanup that completes by raising. -/
theorem c3_counterexample :
    ((Tempfile.mk [.str "d"]).cleanup ⟨[], [], [], [], [], false⟩).2.err
        = some Err.enoent ∧
    ((Tempfile.mk [.str "d"]).cleanup ⟨[], [], [], [], [], false⟩).1.paths
        = [.str "d"] := by
  decide

/-- C3 (amended): after a cleanup that returns normally the tracked list is
empty (so no handle is cleaned up twice by a later cleanup); after a cleanup
that terminates by raising a deletion error the tracked list is left exactly
as it was, so it is non-empty whenever it was non-empty before. -/
theorem c3_tracked_after_cleanup (t : Tempfile) (fs : FS) :
    ((t.cleanup fs).2.err = none → (t.cleanup fs).1.paths = []) ∧
    (∀ e, (t.cleanup fs).2.err = some e → (t.cleanup fs).1 = t) := by
  constructor
  · intro h
    rw [Tempfile.cleanup_snd] at h
    rw [Tempfile.cleanup_of_err_none h]
  · intro e h
    rw [Tempfile.cleanup_snd] at h
    exact Tempfile.cleanup_of_err_some h

/-- Witness for the amended C3: both branches at concrete inputs. -/
theorem c3_tracked_after_cleanup_witness :
    ((Tempfile.mk []).cleanup ⟨[], [], [], [], [], false⟩).1.paths = [] ∧
    ((Tempfile.mk [.str "e"]).cleanup ⟨[], [], [], [], [], false⟩).1
        = Tempfile.mk [.str "e"] :=
  ⟨(c3_tracked_after_cleanup ⟨[]⟩ ⟨[], [], [], [], [], false⟩).1 (by decide),
   (c3_tracked_after_cleanup ⟨[.str "e"]⟩ ⟨[], [], [], [], [], false⟩).2
      Err.enoent (by decide)⟩

/-- C4: cleanup is fail-fast.  When it raises, the tracked list splits as
`done ++ bad :: rest` where every handle of `done` was fully processed, the
surfaced error is the one raised on `bad`, the attempted system calls are
exactly those of `done` plus (a prefix of) those of `bad` — so nothing after
the failing handle is attempted — and the tracked list is left unchanged and
non-empty. -/
theorem c4_fail_fast {t : Tempfile} {fs : FS} {e : Err}
    (h : (t.cleanup fs).2.err = some e) :
    (t.cleanup fs).1 = t ∧ (t.cleanup fs).1.paths ≠ [] ∧
    ∃ done bad rest fsd,
      t.paths = done ++ bad :: rest ∧
      cleanupLoop done fs = ⟨done.flatMap sysOf, fsd, none⟩ ∧
      (cleanupLoop [bad] fsd).err = some e ∧
      (t.cleanup fs).2.trace = done.flatMap sysOf ++ (cleanupLoop [bad] fsd).trace ∧
      (∀ op ∈ (cleanupLoop [bad] fsd).trace, op ∈ sysOf bad) := by
  have h2 := h
  rw [Tempfile.cleanup_snd] at h2
  obtain ⟨done, bad, rest, fsd, hsplit, hdone, hbad, htrace, _⟩ :=
    cleanupLoop_err_split h2
  have h1 : (t.cleanup fs).1 = t := Tempfile.cleanup_of_err_some h2
  refine ⟨h1, ?_, done, bad, rest, fsd, hsplit, hdone, hbad, ?_,
    cleanupLoop_single_trace bad fsd⟩
  · rw [h1, hsplit]
    simp
  · rw [Tempfile.cleanup_snd]
    exact htrace

/-- Witness for C4: the first of two tracked directories fails to delete. -/
theorem c4_fail_fast_witness :
    ((Tempfile.mk [.str "d", .str "e"]).cleanup ⟨[], ["e"], [], [], [], false⟩).1
        = Tempfile.mk [.str "d", .str "e"] ∧
    ((Tempfile.mk [.str "d", .str "e"]).cleanup
        ⟨[], ["e"], [], [], [], false⟩).1.paths ≠ [] := by
  have h := @c4_fail_fast ⟨[.str "d", .str "e"]⟩
    ⟨[], ["e"], [], [], [], false⟩ Err.enoent (by decide)
  exact ⟨h.1, h.2.1⟩

/-- C5: when the underlying creation primitive raises, the error propagates
to the caller and the manager and filesystem are unchanged — in particular
nothing is appended to the tracked list. -/
theorem c5_creation_failure_no_track (t : Tempfile) (fs : FS) (e : Err) :
    (tempfile_mkstemp fs = .error e → t.mkstemp fs = .error (e, t, fs)) ∧
    (tempfile_mkdtemp fs = .error e → t.mkdtemp fs = .error (e, t, fs)) := by
  constructor
  · intro h
    simp [Tempfile.mkstemp, h]
  · intro h
    simp [Tempfile.mkdtemp, h]

/-- Witness for C5 on a full disk. -/
theorem c5_creation_failure_no_track_witness :
    (Tempfile.mk [.str "z"]).mkstemp ⟨[], [], [], [], [], true⟩
        = .error (Err.enospc, Tempfile.mk [.str "z"], ⟨[], [], [], [], [], true⟩) ∧
    (Tempfile.mk [.str "z"]).mkdtemp ⟨[], [], [], [], [], true⟩
        = .error (Err.enospc, Tempfile.mk [.str "z"], ⟨[], [], [], [], [], true⟩) :=
  ⟨(c5_creation_failure_no_track ⟨[.str "z"]⟩ ⟨[], [], [], [], [], true⟩ Err.enospc).1
      (by rfl),
   (c5_creation_failure_no_track ⟨[.str "z"]⟩ ⟨[], [], [], [], [], true⟩ Err.enospc).2
      (by rfl)⟩

/-- C6: cleanup with nothing tracked is a no-op that does not raise and does
not touch the filesystem; consequently after a successful cleanup a second
cleanup is a no-op. -/
theorem c6_empty_cleanup_noop (t : Tempfile) (fs : FS) :
    (Tempfile.mk []).cleanup fs = (⟨[]⟩, ⟨[], fs, none⟩) ∧
    ((t.cleanup fs).2.err = none →
      (t.cleanup fs).1.cleanup (t.cleanup fs).2.fs
        = ((t.cleanup fs).1, ⟨[], (t.cleanup fs).2.fs, none⟩)) := by
  have hbase : ∀ fs' : FS, (Tempfile.mk []).cleanup fs' = (⟨[]⟩, ⟨[], fs', none⟩) :=
    fun fs' => rfl
  refine ⟨hbase fs, ?_⟩
  intro h
  rw [Tempfile.cleanup_snd] at h
  rw [Tempfile.cleanup_of_err_none h]
  exact hbase _

/-- Witness for C6: empty cleanup and a cleanup-then-cleanup sequence. -/
theorem c6_empty_cleanup_noop_witness :
    (Tempfile.mk []).cleanup ⟨[], [], [], [], [], false⟩
      = (⟨[]⟩, ⟨[], ⟨[], [], [], [], [], false⟩, none⟩) ∧
    ((Tempfile.mk [.str "b"]).cleanup ⟨[], ["b"], [], [], [], false⟩).1.cleanup
        ((Tempfile.mk [.str "b"]).cleanup ⟨[], ["b"], [], [], [], false⟩).2.fs
      = (((Tempfile.mk [.str "b"]).cleanup ⟨[], ["b"], [], [], [], false⟩).1,
         ⟨[], ((Tempfile.mk [.str "b"]).cleanup
            ⟨[], ["b"], [], [], [], false⟩).2.fs, none⟩) :=
  ⟨(c6_empty_cleanup_noop (Tempfile.mk []) ⟨[], [], [], [], [], false⟩).1,
   (c6_empty_cleanup_noop (Tempfile.mk [.str "b"])
      ⟨[], ["b"], [], [], [], false⟩).2 (by decide)⟩

/-- C7: after a cleanup that completed, a create call succeeds again (given
the filesystem can still create: disk not full, names and descriptors
available) and the manager tracks the new resource as its single entry — the
manager is reusable, not single-shot. -/
theorem c7_reusable_after_cleanup {t : Tempfile} {fs : FS}
    (hok : (t.cleanup fs).2.err = none)
    (hdf : fs.diskFull = false) (hn : fs.nameSupply ≠ []) (hfd : fs.fdSupply ≠ []) :
    (∃ r t' fs'', ((t.cleanup fs).1).mkstemp ((t.cleanup fs).2.fs) = .ok (r, t', fs'')
        ∧ t'.paths = [.tup r.1 r.2]) ∧
    (∃ d t' fs'', ((t.cleanup fs).1).mkdtemp ((t.cleanup fs).2.fs) = .ok (d, t', fs'')
        ∧ t'.paths = [.str d]) := by
  have hok' := hok
  rw [Tempfile.cleanup_snd] at hok'
  rw [Tempfile.cleanup_of_err_none hok', Tempfile.cleanup_snd]
  obtain ⟨hns, hfds, hdfl, _, _⟩ := cleanupLoop_frame t.paths fs
  cases hnS : fs.nameSupply with
  | nil => exact absurd hnS hn
  | cons n ns =>
    cases hfdS : fs.fdSupply with
    | nil => exact absurd hfdS hfd
    | cons fd fds =>
      have h1 : (cleanupLoop t.paths fs).fs.diskFull = false := by rw [hdfl, hdf]
      have h2 : (cleanupLoop t.paths fs).fs.nameSupply = n :: ns := by rw [hns, hnS]
      have h3 : (cleanupLoop t.paths fs).fs.fdSupply = fd :: fds := by rw [hfds, hfdS]
      constructor
      · refine ⟨(fd, n), ⟨[.tup fd n]⟩,
          { (cleanupLoop t.paths fs).fs with
              files := (cleanupLoop t.paths fs).fs.files ++ [n],
              fds := (cleanupLoop t.paths fs).fs.fds ++ [fd],
              fdSupply := fds, nameSupply := ns }, ?_, rfl⟩
        simp [Tempfile.mkstemp, tempfile_mkstemp, h1, h2, h3]
      · refine ⟨n, ⟨[.str n]⟩,
          { (cleanupLoop t.paths fs).fs with
              dirs := (cleanupLoop t.paths fs).fs.dirs ++ [n],
              nameSupply := ns }, ?_, rfl⟩
        simp [Tempfile.mkdtemp, tempfile_mkdtemp, h1, h2]

/-- Witness for C7: cleanup of one directory, then a new file creation. -/
theorem c7_reusable_after_cleanup_witness :
    ∃ r t' fs'',
      (((Tempfile.mk [.str "b"]).cleanup ⟨[], ["b"], [], ["a"], [7], false⟩).1).mkstemp
          (((Tempfile.mk [.str "b"]).cleanup ⟨[], ["b"], [], ["a"], [7], false⟩).2.fs)
        = .ok (r, t', fs'') ∧ t'.paths = [.tup r.1 r.2] :=
  (@c7_reusable_after_cleanup ⟨[.str "b"]⟩
    ⟨[], ["b"], [], ["a"], [7], false⟩
    (by decide) (by decide) (by decide) (by decide)).1

/-- Every system call the cleanup loop attempts originates from some entry
of the list. -/
theorem cleanupLoop_trace_src (l : List PathEntry) (fs : FS) :
    ∀ op ∈ (cleanupLoop l fs).trace, ∃ e ∈ l, op ∈ sysOf e := by
  induction l generalizing fs with
  | nil => simp [cleanupLoop]
  | cons a rest ih =>
    cases a with
    | tup fd p =>
      cases hc : os_close fd fs with
      | error er =>
        intro op hop
        simp only [cleanupLoop, hc, List.mem_singleton] at hop
        exact ⟨.tup fd p, List.mem_cons_self _ _, by rw [hop]; simp [sysOf]⟩
      | ok fs1 =>
        cases hu : os_unlink p fs1 with
        | error er =>
          intro op hop
          simp only [cleanupLoop, hc, hu, List.mem_cons, List.mem_singleton,
            List.not_mem_nil, or_false] at hop
          rcases hop with h | h
          · exact ⟨.tup fd p, List.mem_cons_self _ _, by rw [h]; simp [sysOf]⟩
          · exact ⟨.tup fd p, List.mem_cons_self _ _, by rw [h]; simp [sysOf]⟩
        | ok fs2 =>
          intro op hop
          simp only [cleanupLoop, hc, hu, List.mem_cons] at hop
          rcases hop with h | h | h
          · exact ⟨.tup fd p, List.mem_cons_self _ _, by rw [h]; simp [sysOf]⟩
          · exact ⟨.tup fd p, List.mem_cons_self _ _, by rw [h]; simp [sysOf]⟩
          · obtain ⟨e, he, hee⟩ := ih fs2 op h
            exact ⟨e, List.mem_cons_of_mem _ he, hee⟩
    | str p =>
      cases hr : shutil_rmtree p fs with
      | error er =>
        intro op hop
        simp only [cleanupLoop, hr, List.mem_singleton] at hop
        exact ⟨.str p, List.mem_cons_self _ _, by rw [hop]; simp [sysOf]⟩
      | ok fs1 =>
        intro op hop
        simp only [cleanupLoop, hr, List.mem_cons] at hop
        rcases hop with h | h
        · exact ⟨.str p, List.mem_cons_self _ _, by rw [h]; simp [sysOf]⟩
        · obtain ⟨e, he, hee⟩ := ih fs1 op h
          exact ⟨e, List.mem_cons_of_mem _ he, hee⟩

/-- C8: the manager is created with an empty tracked list; each successful
create call appends exactly one entry at the end (insertion order = creation
order); cleanup removes entries only all at once (list reset to empty) or
not at all (list unchanged on a raise) — never individually. -/
theorem c8_lifecycle :
    Tempfile.init.paths = [] ∧
    (∀ (t : Tempfile) (fs : FS) (r : Nat × String) (t' : Tempfile) (fs' : FS),
        t.mkstemp fs = .ok (r, t', fs') → t'.paths = t.paths ++ [.tup r.1 r.2]) ∧
    (∀ (t : Tempfile) (fs : FS) (d : String) (t' : Tempfile) (fs' : FS),
        t.mkdtemp fs = .ok (d, t', fs') → t'.paths = t.paths ++ [.str d]) ∧
    (∀ (t : Tempfile) (fs : FS),
        (t.cleanup fs).1.paths = [] ∨ (t.cleanup fs).1.paths = t.paths) := by
  refine ⟨rfl, ?_, ?_, ?_⟩
  · exact fun t fs r t' fs' h => (Tempfile.mkstemp_split h).2
  · exact fun t fs d t' fs' h => (Tempfile.mkdtemp_split h).2
  · intro t fs
    cases hc : (cleanupLoop t.paths fs).err with
    | none => exact Or.inl (by rw [Tempfile.cleanup_of_err_none hc])
    | some e => exact Or.inr (by rw [Tempfile.cleanup_of_err_some hc])

/-- Witness for C8: one file creation, one directory creation, one cleanup. -/
theorem c8_lifecycle_witness :
    Tempfile.init.paths = [] ∧
    (Tempfile.mk [.tup 7 "a"]).paths = (Tempfile.mk []).paths ++ [.tup 7 "a"] ∧
    (Tempfile.mk [.str "b"]).paths = (Tempfile.mk []).paths ++ [.str "b"] ∧
    (((Tempfile.mk [.str "d"]).cleanup ⟨[], [], [], [], [], false⟩).1.paths = []
      ∨ ((Tempfile.mk [.str "d"]).cleanup ⟨[], [], [], [], [], false⟩).1.paths
          = (Tempfile.mk [.str "d"]).paths) := by
  refine ⟨c8_lifecycle.1, ?_, ?_,
    c8_lifecycle.2.2.2 ⟨[.str "d"]⟩ ⟨[], [], [], [], [], false⟩⟩
  · exact c8_lifecycle.2.1 ⟨[]⟩ ⟨[], [], [], ["a"], [7], false⟩ (7, "a")
      ⟨[.tup 7 "a"]⟩ ⟨["a"], [], [7], [], [], false⟩ (by rfl)
  · exact c8_lifecycle.2.2.1 ⟨[]⟩ ⟨[], [], [], ["b"], [], false⟩ "b"
      ⟨[.str "b"]⟩ ⟨[], ["b"], [], [], [], false⟩ (by rfl)

/-- C9: every tracked entry is either the `(fd, path)` tuple appended by
`mkstemp` or the bare path appended by `mkdtemp`, and the cleanup loop
discriminates solely on this shape: every attempted close/unlink call comes
from a tuple entry and every attempted rmtree call comes from a bare-path
entry — a directory handle is never closed as a descriptor and a file handle
is never recursively deleted. -/
theorem c9_shape_discrimination :
    (∀ (t : Tempfile) (fs : FS) (r : Nat × String) (t' : Tempfile) (fs' : FS),
        t.mkstemp fs = .ok (r, t', fs') →
        ∀ e ∈ t'.paths, e ∈ t.paths ∨ e = .tup r.1 r.2) ∧
    (∀ (t : Tempfile) (fs : FS) (d : String) (t' : Tempfile) (fs' : FS),
        t.mkdtemp fs = .ok (d, t', fs') →
        ∀ e ∈ t'.paths, e ∈ t.paths ∨ e = .str d) ∧
    (∀ (l : List PathEntry) (fs : FS),
        (∀ fd, Sys.close fd ∈ (cleanupLoop l fs).trace → ∃ p, PathEntry.tup fd p ∈ l) ∧
        (∀ p, Sys.unlink p ∈ (cleanupLoop l fs).trace → ∃ fd, PathEntry.tup fd p ∈ l) ∧
        (∀ p, Sys.rmtree p ∈ (cleanupLoop l fs).trace → PathEntry.str p ∈ l)) := by
  refine ⟨?_, ?_, ?_⟩
  · intro t fs r t' fs' h e he
    rw [(Tempfile.mkstemp_split h).2] at he
    rcases List.mem_append.mp he with he | he
    · exact Or.inl he
    · exact Or.inr (List.mem_singleton.mp he)
  · intro t fs d t' fs' h e he
    rw [(Tempfile.mkdtemp_split h).2] at he
    rcases List.mem_append.mp he with he | he
    · exact Or.inl he
    · exact Or.inr (List.mem_singleton.mp he)
  · intro l fs
    refine ⟨?_, ?_, ?_⟩
    · intro fd hmem
      obtain ⟨e, he, hee⟩ := cleanupLoop_trace_src l fs _ hmem
      cases e with
      | tup fd' p' =>
        simp only [sysOf, List.mem_cons, List.mem_singleton, List.not_mem_nil,
          or_false, Sys.close.injEq, reduceCtorEq] at hee
        exact ⟨p', by rw [hee]; exact he⟩
      | str p' => simp [sysOf] at hee
    · intro p hmem
      obtain ⟨e, he, hee⟩ := cleanupLoop_trace_src l fs _ hmem
      cases e with
      | tup fd' p' =>
        simp only [sysOf, List.mem_cons, List.mem_singleton, List.not_mem_nil,
          or_false, Sys.unlink.injEq, reduceCtorEq, false_or] at hee
        exact ⟨fd', by rw [hee]; exact he⟩
      | str p' => simp [sysOf] at hee
    · intro p hmem
      obtain ⟨e, he, hee⟩ := cleanupLoop_trace_src l fs _ hmem
      cases e with
      | tup fd' p' => simp [sysOf] at hee
      | str p' =>
        simp only [sysOf, List.mem_singleton, Sys.rmtree.injEq] at hee
        exact (by rw [hee]; exact he)

/-- Witness for C9 on a concrete tracked list of one file and one
directory. -/
theorem c9_shape_discrimination_witness :
    (∃ p, PathEntry.tup 7 p ∈ [PathEntry.tup 7 "a", PathEntry.str "b"]) ∧
    PathEntry.str "b" ∈ [PathEntry.tup 7 "a", PathEntry.str "b"] := by
  have h := c9_shape_discrimination.2.2 [PathEntry.tup 7 "a", PathEntry.str "b"]
      ⟨["a"], ["b"], [7], [], [], false⟩
  exact ⟨h.1 7 (by decide), h.2.2 "b" (by decide)⟩
